import Mathlib

/-!
smph: a weighted counting semaphore built on a buffered channel.

Shallow embedding of `smph.go`.

* The ticket pool `s.self` is a buffered `chan struct{}`.  Its elements are
  indistinguishable, so the channel is represented by its capacity and its
  current length.
* Go `int` values are embedded as `Int`.  The only arithmetic done by the code is
  `cap - len`, `acquired++` and the loop counters `i++`, all of which stay between
  `0` and `cap(s.self)`, so no wrap-around can occur.
* A channel operation that cannot proceed parks the goroutine.  The sequential
  operations return an `Outcome` recording whether the call returned, panicked
  or parked (with the pool as it was at that moment).
* The worker's `acquire` polls in an endless loop; it is run with a bound on the
  number of passes, and its environment (when the request's context is cancelled,
  how a `select` with several ready cases is resolved) is an explicit `Sched`.
* `Acquire` and `processRequests` run in different goroutines and meet on channels;
  they are embedded as step functions over a `System` of control points.
* Everything here is about a live semaphore: the state after `s.ctx` is cancelled,
  where `processRequests` closes both channels, is not modelled.
-/

namespace Smph

/-! ## Definitions -/

/-- Buffered channel of `struct{}`: `cap(ch)` and `len(ch)`. -/
structure Chan where
  cap : Nat
  len : Nat
deriving DecidableEq, Repr

/-- Well-formed channel state: the buffer never holds more than its capacity. -/
def Chan.wf (c : Chan) : Prop := c.len ≤ c.cap

instance (c : Chan) : Decidable c.wf := by
  unfold Chan.wf; infer_instance

/-- The statement `ch <- struct{}{}`: `none` when the buffer is full and the sender parks. -/
def Chan.send (c : Chan) : Option Chan :=
  if c.len < c.cap then some { c with len := c.len + 1 } else none

/-- The receive `<-ch`: `none` when the buffer is empty and the receiver parks. -/
def Chan.recv (c : Chan) : Option Chan :=
  if 0 < c.len then some { c with len := c.len - 1 } else none

/-- Values passed to `panic`. -/
inductive Panic where
  | ErrInvalidRelease
  | makechanSize
deriving DecidableEq, Repr

/-- Result of running a sequential operation on the pool. -/
inductive Outcome (α : Type) where
  | ret (a : α)
  | panicked (e : Panic) (pool : Chan)
  | blocked (pool : Chan)
deriving DecidableEq, Repr

/-- Post-processing of a returned value. -/
def Outcome.map {α β : Type} (f : α → β) : Outcome α → Outcome β
  | .ret a => .ret (f a)
  | .panicked e p => .panicked e p
  | .blocked p => .blocked p

/-- The struct `Semaphore`, reduced to the ticket pool.  The fields `ctx` and `requests`
are only touched by `Acquire` and `processRequests`; they live in `System` below. -/
structure Semaphore where
  self : Chan
deriving DecidableEq, Repr

/-- The loop `for i := 0; i < k; i++ { ch <- struct{}{} }`. -/
def sendN : Nat → Chan → Outcome Chan
  | 0, c => .ret c
  | k + 1, c =>
    match c.send with
    | none => .blocked c
    | some c' => sendN k c'

/-- The loop `for i := 0; i < k; i++ { <-ch }`. -/
def recvN : Nat → Chan → Outcome Chan
  | 0, c => .ret c
  | k + 1, c =>
    match c.recv with
    | none => .blocked c
    | some c' => recvN k c'

/-- `New(ctx, n)`: `make(chan struct{}, n)` panics on a negative size, then the pool is filled. -/
def New (n : Int) : Outcome Semaphore :=
  if n < 0 then .panicked .makechanSize ⟨0, 0⟩
  else (sendN n.toNat ⟨n.toNat, 0⟩).map Semaphore.mk

/-- `Capacity()` is `cap(s.self)`. -/
def Capacity (s : Semaphore) : Int := (s.self.cap : Int)

/-- `Count()` is `len(s.self)`. -/
def Count (s : Semaphore) : Int := (s.self.len : Int)

/-- `Busy()` is `cap(s.self) - len(s.self)`. -/
def Busy (s : Semaphore) : Int := (s.self.cap : Int) - (s.self.len : Int)

/-- `AcquireNow(n)`. -/
def AcquireNow (s : Semaphore) (n : Int) : Outcome (Bool × Semaphore) :=
  if (s.self.len : Int) ≥ n then
    (recvN n.toNat s.self).map (fun c => (true, Semaphore.mk c))
  else .ret (false, s)

/-- `Release(n)`. -/
def Release (s : Semaphore) (n : Int) : Outcome Semaphore :=
  if n < 0 ∨ n > (s.self.cap : Int) - Busy s then .panicked .ErrInvalidRelease s.self
  else (sendN n.toNat s.self).map Semaphore.mk

/-- Environment of one run of the worker's `acquire(ctx, n)`, indexed by the passes through
its `select`.  `cancelAt = some k` says that `ctx.Done()` is closed from pass `k` on
(`none`: the context is never cancelled).  When both `<-ctx.Done()` and `<-s.self` are ready
Go's `select` picks one of them at random; `pick t = true` says that pass `t` picks
`<-ctx.Done()`. -/
structure Sched where
  cancelAt : Option Nat
  pick : Nat → Bool

/-- Whether `<-ctx.Done()` is ready at pass `t`. -/
def Sched.fired (sch : Sched) (t : Nat) : Bool :=
  match sch.cancelAt with
  | none => false
  | some k => decide (k ≤ t)

/-- One pass through the `select` in the closure of `acquire`.  The first component is the
value returned by the closure at this pass, if it returns; the others are `acquired` and the
pool after the pass. -/
def pollOnce (sch : Sched) (n : Int) (t : Nat) (acquired : Int) (c : Chan) :
    Option Bool × Int × Chan :=
  if sch.fired t = true ∧ (c.len = 0 ∨ sch.pick t = true) then
    (some false, acquired, c)
  else
    match c.recv with
    | some c' => (if acquired + 1 = n then some true else none, acquired + 1, c')
    | none => (none, acquired, c)

/-- The closure `success := func() bool { for { select { ... } } }()` of `acquire`, started at
pass `t` with the given `acquired` and pool, and run for at most `fuel` passes.  Returns the
closure's value together with `acquired` and the pool when it returns. -/
def acquireLoop (sch : Sched) (n : Int) : Nat → Nat → Int → Chan → Option (Bool × Int × Chan)
  | 0, _, _, _ => none
  | fuel + 1, t, acquired, c =>
    match pollOnce sch n t acquired c with
    | (some b, acquired', c') => some (b, acquired', c')
    | (none, acquired', c') => acquireLoop sch n fuel (t + 1) acquired' c'

/-- The worker's `acquire(ctx, n)`, with at most `fuel` passes through the polling loop
(`none`: the loop is still polling after `fuel` passes). -/
def acquire (sch : Sched) (s : Semaphore) (n : Int) (fuel : Nat) :
    Option (Outcome (Bool × Semaphore)) :=
  match acquireLoop sch n fuel 0 0 s.self with
  | none => none
  | some (success, acquired, c) =>
    if !success then
      some ((sendN acquired.toNat c).map (fun c' => (false, Semaphore.mk c')))
    else some (.ret (true, Semaphore.mk c))

/-- A context that is never cancelled. -/
def neverCancelled : Sched := ⟨none, fun _ => false⟩

/-- A context cancelled from pass `k` on, every tie of the `select` going to `<-ctx.Done()`. -/
def cancelledAt (k : Nat) : Sched := ⟨some k, fun _ => true⟩

/-- States of the pool reachable from `New(ctx, c)`: by whole calls of `AcquireNow`, `Release`
and the worker's `acquire`, by a `Release` parked in the middle of its put loop, and by the
single steps those operations are made of (one pass of the worker's polling loop, one put of a
put loop, one take of a take loop), so that interleavings of the operations are covered. -/
inductive Reachable (c : Int) : Semaphore → Prop where
  | new (s : Semaphore) : New c = .ret s → Reachable c s
  | acquireNow (s : Semaphore) (n : Int) (b : Bool) (s' : Semaphore) :
      Reachable c s → AcquireNow s n = .ret (b, s') → Reachable c s'
  | release (s : Semaphore) (n : Int) (s' : Semaphore) :
      Reachable c s → Release s n = .ret s' → Reachable c s'
  | releaseParked (s : Semaphore) (n : Int) (p : Chan) :
      Reachable c s → Release s n = .blocked p → Reachable c ⟨p⟩
  | acquire (s : Semaphore) (sch : Sched) (n : Int) (fuel : Nat) (b : Bool) (s' : Semaphore) :
      Reachable c s → acquire sch s n fuel = some (.ret (b, s')) → Reachable c s'
  | poll (s : Semaphore) (sch : Sched) (n : Int) (t : Nat) (a : Int) (r : Option Bool)
      (a' : Int) (p : Chan) :
      Reachable c s → pollOnce sch n t a s.self = (r, a', p) → Reachable c ⟨p⟩
  | put (s : Semaphore) (p : Chan) : Reachable c s → s.self.send = some p → Reachable c ⟨p⟩
  | take (s : Semaphore) (p : Chan) : Reachable c s → s.self.recv = some p → Reachable c ⟨p⟩

/-- The struct `request`.  `ctx` is the derived context `rctx` as the worker's polling loop
sees it; `done` identifies the unbuffered channel `make(chan bool)` of the submitting call, by
the index of that call in `System.callers`. -/
structure request where
  ctx : Sched
  n : Int
  done : Nat

/-- Control point of a goroutine executing `Acquire(ctx, n)`. -/
inductive Caller where
  /-- At the outer `select`: `<-ctx.Done()` or `s.requests <- r`. -/
  | atSubmit (r : request)
  /-- At the inner `select`: `<-r.done` or `<-ctx.Done()`. -/
  | atWait (r : request)
  /-- The call has returned `result`. -/
  | returned (result : Bool)

/-- Control point of the goroutine executing `processRequests`. -/
inductive Worker where
  /-- At the `select` at the top of the `for` loop. -/
  | atSelect
  /-- `s.acquire(r.ctx, r.n)` has returned `result`; at the send `r.done <- result`. -/
  | atSend (r : request) (result : Bool)
  /-- Returned after `<-s.ctx.Done()`. -/
  | exited

/-- A live semaphore together with its worker and the goroutines inside `Acquire`.
`requests` is the buffer of the channel `s.requests`, whose capacity is 1. -/
structure System where
  smph : Semaphore
  requests : List request
  worker : Worker
  callers : List Caller

/-- One step of the goroutine running `processRequests()` (`none`: it cannot move).
`closing` says that `<-s.ctx.Done()` is ready and picked by the `select`; `fuel` bounds the passes of the polling
loop of `acquire`.  The send `r.done <- result` is on an unbuffered channel: it completes only
if the submitting call is at its receive `<-r.done`, which then returns `result`. -/
def processRequests (closing : Bool) (fuel : Nat) (σ : System) : Option System :=
  match σ.worker with
  | .atSelect =>
    if closing then some { σ with worker := .exited }
    else
      match σ.requests with
      | [] => none
      | r :: rest =>
        match acquire r.ctx σ.smph r.n fuel with
        | some (.ret (b, s')) =>
          some { σ with smph := s', requests := rest, worker := .atSend r b }
        | _ => none
  | .atSend r b =>
    match σ.callers[r.done]? with
    | some (.atWait _) =>
      some { σ with worker := .atSelect, callers := σ.callers.set r.done (.returned b) }
    | _ => none
  | .exited => none

/-- One step of the goroutine of call `i` inside `Acquire(ctx, n)` (`none`: it cannot move).
`cancelled` says that `<-ctx.Done()` is ready and picked by the `select`.  The receive from
`r.done` is performed jointly with the worker's send, in `processRequests`. -/
def Acquire (i : Nat) (cancelled : Bool) (σ : System) : Option System :=
  match σ.callers[i]? with
  | some (.atSubmit r) =>
    if cancelled then some { σ with callers := σ.callers.set i (.returned false) }
    else if σ.requests.length < 1 then
      some { σ with requests := σ.requests ++ [r], callers := σ.callers.set i (.atWait r) }
    else none
  | some (.atWait _) =>
    if cancelled then some { σ with callers := σ.callers.set i (.returned false) }
    else none
  | _ => none

/-- What the goroutines around a live semaphore can do. -/
inductive Event where
  /-- A goroutine enters `Acquire(ctx, n)` and builds its request. -/
  | call (ctx : Sched) (n : Int)
  /-- The goroutine of call `i` takes a step. -/
  | caller (i : Nat) (cancelled : Bool)
  /-- The worker takes a step. -/
  | worker (closing : Bool) (fuel : Nat)
  /-- Some goroutine runs `AcquireNow(n)`. -/
  | acquireNow (n : Int)
  /-- Some goroutine runs `Release(n)`. -/
  | release (n : Int)

/-- The effect of one event (`none`: the event cannot happen in this state). -/
def step (σ : System) : Event → Option System
  | .call ctx n =>
    some { σ with callers := σ.callers ++ [.atSubmit ⟨ctx, n, σ.callers.length⟩] }
  | .caller i cancelled => Acquire i cancelled σ
  | .worker closing fuel => processRequests closing fuel σ
  | .acquireNow n =>
    match AcquireNow σ.smph n with
    | .ret (_, s') => some { σ with smph := s' }
    | _ => none
  | .release n =>
    match Release σ.smph n with
    | .ret s' => some { σ with smph := s' }
    | _ => none

/-- Runs a sequence of events, skipping those that cannot happen. -/
def run (σ : System) : List Event → System
  | [] => σ
  | e :: es =>
    match step σ e with
    | some σ' => run σ' es
    | none => run σ es

/-- The worker is at the send of the outcome of `r` while the call that submitted `r` has
already returned. -/
def Stalled (r : request) (b : Bool) (σ : System) : Prop :=
  σ.worker = .atSend r b ∧ ∃ res, σ.callers[r.done]? = some (.returned res)

/-- The system right after `New(ctx, 1)`: full pool, empty request queue, worker at its
`select`, no call in progress. -/
def afterNew1 : System := ⟨⟨⟨1, 1⟩⟩, [], .atSelect, []⟩

/-- `Acquire(ctx, 2)` is entered and enqueues its request; `ctx` is cancelled and the call
returns `false`; the worker dequeues the request and runs `acquire` to completion; then
`Acquire(context.Background(), 1)` is entered and enqueues its request. -/
def abandonScenario : List Event :=
  [.call (cancelledAt 0) 2, .caller 0 false, .caller 0 true, .worker false 5,
   .call neverCancelled 1, .caller 1 false]

/-! ## Theorems -/

/-- Taking `k` units from a pool holding at least `k` never parks. -/
theorem recvN_of_le (k : Nat) (c : Chan) (h : k ≤ c.len) :
    recvN k c = .ret ⟨c.cap, c.len - k⟩ := by
  induction k generalizing c with
  | zero => rfl
  | succ k ih =>
    have hpos : 0 < c.len := by omega
    simp only [recvN, Chan.recv, hpos, if_true]
    rw [ih _ (by simp; omega)]
    simp
    omega

/-- Putting `k` units into a pool with at least `k` free slots never parks. -/
theorem sendN_of_le (k : Nat) (c : Chan) (h : c.len + k ≤ c.cap) :
    sendN k c = .ret ⟨c.cap, c.len + k⟩ := by
  induction k generalizing c with
  | zero => rfl
  | succ k ih =>
    have hlt : c.len < c.cap := by omega
    simp only [sendN, Chan.send, hlt, if_true]
    rw [ih _ (by simp; omega)]
    simp
    omega

/-- Putting more units than there are free slots parks the sender on the full pool. -/
theorem sendN_of_gt (k : Nat) (c : Chan) (hwf : c.len ≤ c.cap) (h : c.cap < c.len + k) :
    sendN k c = .blocked ⟨c.cap, c.cap⟩ := by
  induction k generalizing c with
  | zero => omega
  | succ k ih =>
    by_cases hlt : c.len < c.cap
    · simp only [sendN, Chan.send, hlt, if_true]
      rw [ih _ (by simp; omega) (by simp; omega)]
    · have : c.len = c.cap := by omega
      simp only [sendN, Chan.send, hlt, if_false]
      cases c; simp_all

/-- The put loop contains no `panic`. -/
theorem sendN_ne_panicked (k : Nat) (c : Chan) (e : Panic) (p : Chan) :
    sendN k c ≠ .panicked e p := by
  induction k generalizing c with
  | zero => simp [sendN]
  | succ k ih =>
    simp only [sendN]
    cases c.send with
    | none => simp
    | some c' => exact ih c'

/-- `ctx.Done()` is ready at pass `t` exactly when the cancellation happened at or before `t`. -/
theorem fired_iff (sch : Sched) (t : Nat) :
    sch.fired t = true ↔ ∃ k, sch.cancelAt = some k ∧ k ≤ t := by
  unfold Sched.fired
  cases sch.cancelAt with
  | none => simp
  | some k => simp

/-- What one pass through the `select` does to `acquired` and the pool. -/
theorem pollOnce_spec (sch : Sched) (n : Int) (t : Nat) (a : Int) (c : Chan)
    (r : Option Bool) (a' : Int) (c' : Chan) (h : pollOnce sch n t a c = (r, a', c')) :
    c'.cap = c.cap ∧ a' + c'.len = a + c.len ∧ a ≤ a' ∧ c'.len ≤ c.len ∧
    (r = some true → a' = n ∧ a' = a + 1) ∧
    (r = some false → sch.fired t = true ∧ a' = a ∧ c' = c) ∧
    (r = none → sch.fired t = true → c'.len + 1 = c.len) ∧
    (r = none → sch.fired t = false → c'.len = c.len - 1 ∧ a' = a + ((min 1 c.len : Nat) : Int)) := by
  unfold pollOnce at h
  by_cases hf : sch.fired t = true ∧ (c.len = 0 ∨ sch.pick t = true)
  · rw [if_pos hf] at h
    simp only [Prod.mk.injEq] at h
    obtain ⟨h1, h2, h3⟩ := h
    subst h1 h2 h3
    simp [hf.1]
  · rw [if_neg hf] at h
    unfold Chan.recv at h
    by_cases hl : 0 < c.len
    · rw [if_pos hl] at h
      simp only [Prod.mk.injEq] at h
      obtain ⟨h1, h2, h3⟩ := h
      subst h2 h3
      refine ⟨rfl, ?_, by omega, by simp, ?_, ?_, ?_, ?_⟩
      · simp only; omega
      · intro hr; subst hr
        by_cases hn : a + 1 = n
        · exact ⟨hn, rfl⟩
        · simp [hn] at h1
      · intro hr; subst hr
        by_cases hn : a + 1 = n <;> simp [hn] at h1
      · intro _ _; simp only; omega
      · intro _ _
        refine ⟨rfl, ?_⟩
        have : min 1 c.len = 1 := by omega
        rw [this]; simp
    · rw [if_neg hl] at h
      simp only [Prod.mk.injEq] at h
      obtain ⟨h1, h2, h3⟩ := h
      subst h1 h2 h3
      have h0 : c.len = 0 := by omega
      refine ⟨rfl, rfl, le_refl _, le_refl _, by simp, by simp, ?_, ?_⟩
      · intro _ hfired
        exact absurd ⟨hfired, Or.inl h0⟩ hf
      · intro _ _
        simp [h0]

/-- What the polling loop leaves behind when it returns. -/
theorem acquireLoop_spec (sch : Sched) (n : Int) (fuel : Nat) :
    ∀ (t : Nat) (a : Int) (c : Chan) (b : Bool) (a' : Int) (c' : Chan),
      acquireLoop sch n fuel t a c = some (b, a', c') →
      c'.cap = c.cap ∧ a' + c'.len = a + c.len ∧ a ≤ a' ∧
      (b = true → a' = n ∧ a < a') ∧
      (b = false → ∃ k, sch.cancelAt = some k ∧ k < t + fuel) := by
  induction fuel with
  | zero => intro t a c b a' c' h; simp [acquireLoop] at h
  | succ fuel ih =>
    intro t a c b a' c' h
    unfold acquireLoop at h
    rcases hp : pollOnce sch n t a c with ⟨r, a1, c1⟩
    have hs := pollOnce_spec sch n t a c r a1 c1 hp
    rw [hp] at h
    cases r with
    | some b1 =>
      simp only [Option.some.injEq, Prod.mk.injEq] at h
      obtain ⟨h1, h2, h3⟩ := h
      subst h1 h2 h3
      refine ⟨hs.1, hs.2.1, hs.2.2.1, ?_, ?_⟩
      · intro hb; subst hb
        have := hs.2.2.2.2.1 rfl
        omega
      · intro hb; subst hb
        obtain ⟨k, hk, hkt⟩ := (fired_iff sch t).1 (hs.2.2.2.2.2.1 rfl).1
        exact ⟨k, hk, by omega⟩
    | none =>
      simp only at h
      obtain ⟨i1, i2, i3, i4, i5⟩ := ih (t + 1) a1 c1 b a' c' h
      refine ⟨by rw [i1, hs.1], by rw [i2, hs.2.1], by omega, ?_, ?_⟩
      · intro hb
        have := i4 hb
        omega
      · intro hb
        obtain ⟨k, hk, hkt⟩ := i5 hb
        exact ⟨k, hk, by omega⟩

/-- Once the context is cancelled at pass `k`, the polling loop returns within
`(k - t) + len + 1` passes: at most `len` more units can be taken after the cancellation. -/
theorem acquireLoop_terminates (sch : Sched) (n : Int) (k : Nat) (hk : sch.cancelAt = some k)
    (fuel : Nat) :
    ∀ (t : Nat) (a : Int) (c : Chan), (k - t) + c.len + 1 ≤ fuel →
      ∃ r, acquireLoop sch n fuel t a c = some r := by
  induction fuel with
  | zero => intro t a c h; omega
  | succ fuel ih =>
    intro t a c h
    unfold acquireLoop
    rcases hp : pollOnce sch n t a c with ⟨r, a1, c1⟩
    have hs := pollOnce_spec sch n t a c r a1 c1 hp
    cases r with
    | some b1 => exact ⟨_, rfl⟩
    | none =>
      simp only
      apply ih
      by_cases hkt : k ≤ t
      · have hf : sch.fired t = true := (fired_iff sch t).2 ⟨k, hk, hkt⟩
        have := hs.2.2.2.2.2.2.1 rfl hf
        omega
      · have := hs.2.2.2.1
        omega

/-- With a context that is never cancelled and at least `m ≥ 1` units in the pool, the polling
loop takes exactly the `m` units still missing and returns `true`. -/
theorem acquireLoop_grants (sch : Sched) (n : Int) (hc : sch.cancelAt = none) (m : Nat) :
    ∀ (fuel t : Nat) (a : Int) (c : Chan), m + 1 ≤ fuel → a + ((m + 1 : Nat) : Int) = n →
      m + 1 ≤ c.len →
      acquireLoop sch n fuel t a c = some (true, n, ⟨c.cap, c.len - (m + 1)⟩) := by
  have hnf : ∀ t, sch.fired t = false := by
    intro t; unfold Sched.fired; rw [hc]
  induction m with
  | zero =>
    intro fuel t a c hfuel ha hlen
    obtain ⟨fuel, rfl⟩ : ∃ f, fuel = f + 1 := ⟨fuel - 1, by omega⟩
    have hl : 0 < c.len := by omega
    have ha' : a + 1 = n := by simpa using ha
    simp [acquireLoop, pollOnce, hnf, Chan.recv, hl, ha']
  | succ m ih =>
    intro fuel t a c hfuel ha hlen
    obtain ⟨fuel, rfl⟩ : ∃ f, fuel = f + 1 := ⟨fuel - 1, by omega⟩
    have hl : 0 < c.len := by omega
    have ha' : ¬ (a + 1 = n) := by push_cast at ha; omega
    simp only [acquireLoop, pollOnce, hnf, Chan.recv, hl, if_true, ha', if_false,
      Bool.false_eq_true, false_and]
    rw [ih fuel (t + 1) (a + 1) ⟨c.cap, c.len - 1⟩ (by omega) (by push_cast at ha ⊢; omega)
      (by simp only; omega)]
    simp only [Option.some.injEq, Prod.mk.injEq, Chan.mk.injEq, true_and]
    omega

/-- C1: with no concurrent pool mutation and `n ≥ 0`, `AcquireNow(n)` returns `true` and lowers
`Count()` by exactly `n` when `Count() ≥ n`, and returns `false` leaving the semaphore untouched
when `Count() < n`; `Capacity()` is the same afterwards in both cases. -/
theorem AcquireNow_all_or_nothing (s : Semaphore) (n : Int) (hn : 0 ≤ n) :
    (Count s ≥ n → ∃ s', AcquireNow s n = .ret (true, s') ∧
        Count s' = Count s - n ∧ Capacity s' = Capacity s) ∧
    (Count s < n → ∃ s', AcquireNow s n = .ret (false, s') ∧
        Count s' = Count s ∧ Capacity s' = Capacity s) := by
  constructor
  · intro h
    have hk : n.toNat ≤ s.self.len := by
      unfold Count at h; omega
    refine ⟨⟨⟨s.self.cap, s.self.len - n.toNat⟩⟩, ?_, ?_, rfl⟩
    · unfold Count at h
      simp only [AcquireNow, h, if_true, recvN_of_le _ _ hk, Outcome.map, ge_iff_le]
    · simp only [Count]
      omega
  · intro h
    refine ⟨s, ?_, rfl, rfl⟩
    unfold Count at h
    have : ¬ ((s.self.len : Int) ≥ n) := by omega
    simp only [AcquireNow, this, if_false]

theorem AcquireNow_all_or_nothing_witness :
    (∃ s', AcquireNow ⟨⟨5, 3⟩⟩ 2 = .ret (true, s') ∧
        Count s' = Count ⟨⟨5, 3⟩⟩ - 2 ∧ Capacity s' = Capacity ⟨⟨5, 3⟩⟩) :=
  (AcquireNow_all_or_nothing ⟨⟨5, 3⟩⟩ 2 (by decide)).1 (by decide)

/-- C2: `Release(n)` panics with `ErrInvalidRelease` exactly when `n < 0` or
`n > Capacity() - Busy()`; the panic happens before any unit is put back, so the pool at the
moment of the panic is the pool before the call; and `Release(Capacity() + k)` panics for every
`k ≥ 1` in every well-formed state. -/
theorem Release_panics_iff (s : Semaphore) (n : Int) :
    ((∃ e p, Release s n = .panicked e p) ↔ (n < 0 ∨ n > Capacity s - Busy s)) ∧
    ((n < 0 ∨ n > Capacity s - Busy s) → Release s n = .panicked .ErrInvalidRelease s.self) ∧
    (s.self.wf → ∀ k : Int, 1 ≤ k →
      Release s (Capacity s + k) = .panicked .ErrInvalidRelease s.self) := by
  have hpanic : (n < 0 ∨ n > Capacity s - Busy s) →
      Release s n = .panicked .ErrInvalidRelease s.self := by
    intro h
    unfold Capacity at h
    simp only [Release, h, if_true]
  refine ⟨⟨?_, fun h => ⟨_, _, hpanic h⟩⟩, hpanic, ?_⟩
  · rintro ⟨e, p, h⟩
    by_contra hc
    unfold Capacity at hc
    simp only [Release, hc, if_false] at h
    cases hs : sendN n.toNat s.self with
    | ret c => simp [hs, Outcome.map] at h
    | blocked c => simp [hs, Outcome.map] at h
    | panicked e' p' => exact sendN_ne_panicked _ _ _ _ hs
  · intro hwf k hk
    have h : (Capacity s + k < 0 ∨ Capacity s + k > (s.self.cap : Int) - Busy s) := by
      unfold Chan.wf at hwf
      unfold Capacity Busy
      omega
    simp only [Release, h, if_true]

theorem Release_panics_iff_witness :
    Release ⟨⟨3, 1⟩⟩ (Capacity ⟨⟨3, 1⟩⟩ + 1) = .panicked .ErrInvalidRelease ⟨3, 1⟩ :=
  (Release_panics_iff ⟨⟨3, 1⟩⟩ 0).2.2 (by decide) 1 (by decide)

/-- C3: conservation fails on the code.  From a fresh `New(ctx, 3)`, `AcquireNow(2)` succeeds and
so does the queued acquisition of 2 units (both leave `Count() = 1`), but the matching
`Release(2)` panics with `ErrInvalidRelease`, because the guard of `Release` compares `n` with
`cap - Busy() = Count() = 1` instead of `Busy() = 2`; `Count()` stays 1 and never returns to 3. -/
theorem Release_after_acquire_panics :
    New 3 = .ret ⟨⟨3, 3⟩⟩ ∧
    AcquireNow ⟨⟨3, 3⟩⟩ 2 = .ret (true, ⟨⟨3, 1⟩⟩) ∧
    acquire neverCancelled ⟨⟨3, 3⟩⟩ 2 2 = some (.ret (true, ⟨⟨3, 1⟩⟩)) ∧
    Release ⟨⟨3, 1⟩⟩ 2 = .panicked .ErrInvalidRelease ⟨3, 1⟩ := by
  refine ⟨by decide, by decide, by decide, by decide⟩

/-- C4: rollback.  In a well-formed state with no concurrent pool mutation, for every amount,
every cancellation point and every resolution of the `select`, when the polling loop reports
failure holding `a` units, the pool is short of exactly those `a` units and `acquire` puts all
of them back without parking: it returns `false` with the semaphore exactly as it was before
the attempt, so `Count()` is the same before and after.  No completed run ends any other way
than by success or by this full rollback. -/
theorem acquire_failure_rolls_back (sch : Sched) (s : Semaphore) (n : Int) (fuel : Nat)
    (hwf : s.self.wf) :
    (∀ a c, acquireLoop sch n fuel 0 0 s.self = some (false, a, c) →
      Count ⟨c⟩ = Count s - a ∧ acquire sch s n fuel = some (.ret (false, s))) ∧
    (∀ s', acquire sch s n fuel = some (.ret (false, s')) → Count s' = Count s) ∧
    (∀ o, acquire sch s n fuel = some o → (∀ s', o ≠ .ret (true, s')) → o = .ret (false, s)) := by
  have key : ∀ a c, acquireLoop sch n fuel 0 0 s.self = some (false, a, c) →
      Count ⟨c⟩ = Count s - a ∧ acquire sch s n fuel = some (.ret (false, s)) := by
    intro a c h
    obtain ⟨h1, h2, h3, -, -⟩ := acquireLoop_spec sch n fuel 0 0 s.self false a c h
    unfold Chan.wf at hwf
    refine ⟨by simp only [Count]; omega, ?_⟩
    have hsend := sendN_of_le a.toNat c (by omega)
    simp only [acquire, h, Bool.not_false, if_true, hsend, Outcome.map]
    have e1 : c.len + a.toNat = s.self.len := by omega
    rw [h1, e1]
  have all : ∀ o, acquire sch s n fuel = some o → (∀ s', o ≠ .ret (true, s')) →
      o = .ret (false, s) := by
    intro o ho hne
    cases hl : acquireLoop sch n fuel 0 0 s.self with
    | none => simp [acquire, hl] at ho
    | some r =>
      obtain ⟨b, a, c⟩ := r
      cases b with
      | false =>
        have := (key a c hl).2
        rw [this] at ho
        exact (Option.some.inj ho).symm
      | true =>
        simp only [acquire, hl, Bool.not_true, Bool.false_eq_true, if_false,
          Option.some.injEq] at ho
        exact absurd ho.symm (hne _)
  refine ⟨key, ?_, all⟩
  intro s' h
  have := all _ h (by simp)
  simp only [Outcome.ret.injEq, Prod.mk.injEq, true_and] at this
  rw [this]

theorem acquire_failure_rolls_back_witness :
    acquire (cancelledAt 4) ⟨⟨3, 2⟩⟩ 5 9 = some (.ret (false, ⟨⟨3, 2⟩⟩)) :=
  ((acquire_failure_rolls_back (cancelledAt 4) ⟨⟨3, 2⟩⟩ 5 9 (by decide)).1 2 ⟨3, 0⟩
    (by decide)).2

/-- C5: a granted queued acquisition removes exactly `n`.  With `1 ≤ n ≤ Count()`, a context
that is never cancelled and no concurrent pool mutation, `acquire` returns `true` after `n`
passes through its loop (and with any larger bound on the passes) and `Count()` has gone down
by `n`; and for every amount, every cancellation point and every resolution of the `select`,
whenever `acquire` returns `true`, `Count()` afterwards is `Count()` before minus `n`. -/
theorem acquire_granted_removes_n (s : Semaphore) (n : Int) :
    (∀ sch : Sched, 1 ≤ n → n ≤ Count s → sch.cancelAt = none → ∀ fuel, n.toNat ≤ fuel →
      ∃ s', acquire sch s n fuel = some (.ret (true, s')) ∧ Count s' = Count s - n ∧
        Capacity s' = Capacity s) ∧
    (∀ (sch : Sched) (fuel : Nat) (s' : Semaphore),
      acquire sch s n fuel = some (.ret (true, s')) → Count s' = Count s - n) := by
  constructor
  · intro sch h1 h2 hc fuel hfuel
    unfold Count at h2
    have hg := acquireLoop_grants sch n hc (n.toNat - 1) fuel 0 0 s.self (by omega) (by omega)
      (by omega)
    refine ⟨⟨⟨s.self.cap, s.self.len - (n.toNat - 1 + 1)⟩⟩, ?_, ?_, rfl⟩
    · simp only [acquire, hg, Bool.not_true, Bool.false_eq_true, if_false]
    · simp only [Count]
      omega
  · intro sch fuel s' h
    cases hl : acquireLoop sch n fuel 0 0 s.self with
    | none => simp [acquire, hl] at h
    | some r =>
      obtain ⟨b, a, c⟩ := r
      cases b with
      | false =>
        simp only [acquire, hl, Bool.not_false, if_true, Option.some.injEq] at h
        cases hs : sendN a.toNat c <;> simp [hs, Outcome.map] at h
      | true =>
        simp only [acquire, hl, Bool.not_true, Bool.false_eq_true, if_false,
          Option.some.injEq, Outcome.ret.injEq, Prod.mk.injEq, true_and] at h
        obtain ⟨-, h2, -, h4, -⟩ := acquireLoop_spec sch n fuel 0 0 s.self true a c hl
        have := (h4 rfl).1
        subst h
        simp only [Count]
        omega

theorem acquire_granted_removes_n_witness :
    ∃ s', acquire neverCancelled ⟨⟨5, 4⟩⟩ 3 3 = some (.ret (true, s')) ∧
      Count s' = Count ⟨⟨5, 4⟩⟩ - 3 ∧ Capacity s' = Capacity ⟨⟨5, 4⟩⟩ :=
  (acquire_granted_removes_n ⟨⟨5, 4⟩⟩ 3).1 neverCancelled (by decide) (by decide) rfl 3
    (by decide)

/-- C7: a request for more than the capacity fails.  In a well-formed state with no concurrent
pool mutation and `n > Capacity()`, `acquire` never returns `true`, whatever the cancellation
point and the resolution of the `select`; and when the context is cancelled at pass `k`, the
call returns `false` (with the pool restored) within `k + Count() + 1` passes. -/
theorem acquire_over_capacity_fails (s : Semaphore) (n : Int) (hwf : s.self.wf)
    (hn : n > Capacity s) :
    (∀ (sch : Sched) (fuel : Nat) (s' : Semaphore),
      acquire sch s n fuel ≠ some (.ret (true, s'))) ∧
    (∀ (sch : Sched) (k : Nat), sch.cancelAt = some k → ∀ fuel, k + s.self.len + 1 ≤ fuel →
      acquire sch s n fuel = some (.ret (false, s))) := by
  have noSuccess : ∀ (sch : Sched) (fuel : Nat) (a : Int) (c : Chan),
      acquireLoop sch n fuel 0 0 s.self ≠ some (true, a, c) := by
    intro sch fuel a c h
    obtain ⟨-, h2, -, h4, -⟩ := acquireLoop_spec sch n fuel 0 0 s.self true a c h
    have := (h4 rfl).1
    unfold Chan.wf at hwf
    unfold Capacity at hn
    omega
  constructor
  · intro sch fuel s' h
    cases hl : acquireLoop sch n fuel 0 0 s.self with
    | none => simp [acquire, hl] at h
    | some r =>
      obtain ⟨b, a, c⟩ := r
      cases b with
      | false =>
        simp only [acquire, hl, Bool.not_false, if_true, Option.some.injEq] at h
        cases hs : sendN a.toNat c <;> simp [hs, Outcome.map] at h
      | true => exact noSuccess sch fuel a c hl
  · intro sch k hk fuel hfuel
    obtain ⟨⟨b, a, c⟩, hr⟩ := acquireLoop_terminates sch n k hk fuel 0 0 s.self (by omega)
    cases b with
    | true => exact absurd hr (noSuccess sch fuel a c)
    | false => exact ((acquire_failure_rolls_back sch s n fuel hwf).1 a c hr).2

theorem acquire_over_capacity_fails_witness :
    acquire (cancelledAt 4) ⟨⟨3, 2⟩⟩ 5 7 = some (.ret (false, ⟨⟨3, 2⟩⟩)) :=
  (acquire_over_capacity_fails ⟨⟨3, 2⟩⟩ 5 (by decide) (by decide)).2 (cancelledAt 4) 4 rfl 7
    (by decide)

/-- C8: `Release` can park.  On a fresh `New(ctx, 1)` nothing is held (`Busy() = 0`), yet
`n = 1` lies in the range accepted by the guard, `0 ≤ n ≤ Capacity() - Busy() = 1`; the guard
passes and the first put is attempted on the full pool, where the caller parks with `Count()`
still 1. -/
theorem Release_parks_on_full_pool :
    New 1 = .ret ⟨⟨1, 1⟩⟩ ∧ Busy ⟨⟨1, 1⟩⟩ = 0 ∧
    (0 : Int) ≤ 1 ∧ (1 : Int) ≤ Capacity ⟨⟨1, 1⟩⟩ - Busy ⟨⟨1, 1⟩⟩ ∧
    Release ⟨⟨1, 1⟩⟩ 1 = .blocked ⟨1, 1⟩ := by
  refine ⟨by decide, by decide, by decide, by decide, by decide⟩

/-- A put keeps the capacity and never overfills the buffer. -/
theorem send_inv (c c' : Chan) (h : c.send = some c') :
    c'.cap = c.cap ∧ c'.len ≤ c'.cap := by
  unfold Chan.send at h
  by_cases hl : c.len < c.cap
  · rw [if_pos hl] at h
    cases h
    exact ⟨rfl, hl⟩
  · rw [if_neg hl] at h
    cases h

/-- A take keeps the capacity and shrinks the buffer. -/
theorem recv_inv (c c' : Chan) (h : c.recv = some c') :
    c'.cap = c.cap ∧ c'.len ≤ c.len := by
  unfold Chan.recv at h
  by_cases hl : 0 < c.len
  · rw [if_pos hl] at h
    cases h
    exact ⟨rfl, by simp⟩
  · rw [if_neg hl] at h
    cases h

/-- A put loop, whether it completes or parks, keeps the capacity and the bound. -/
theorem sendN_inv (k : Nat) (c c' : Chan) (h : sendN k c = .ret c' ∨ sendN k c = .blocked c')
    (hwf : c.len ≤ c.cap) : c'.cap = c.cap ∧ c'.len ≤ c'.cap := by
  induction k generalizing c with
  | zero =>
    rcases h with h | h
    · simp only [sendN, Outcome.ret.injEq] at h
      subst h
      exact ⟨rfl, hwf⟩
    · simp [sendN] at h
  | succ k ih =>
    simp only [sendN] at h
    cases hs : c.send with
    | none =>
      rw [hs] at h
      rcases h with h | h
      · simp at h
      · simp only [Outcome.blocked.injEq] at h
        subst h
        exact ⟨rfl, hwf⟩
    | some c1 =>
      rw [hs] at h
      obtain ⟨e1, e2⟩ := send_inv c c1 hs
      obtain ⟨i1, i2⟩ := ih c1 h e2
      exact ⟨by rw [i1, e1], i2⟩

/-- A take loop that completes keeps the capacity and does not grow the buffer. -/
theorem recvN_inv (k : Nat) (c c' : Chan) (h : recvN k c = .ret c') :
    c'.cap = c.cap ∧ c'.len ≤ c.len := by
  induction k generalizing c with
  | zero =>
    simp only [recvN, Outcome.ret.injEq] at h
    subst h
    exact ⟨rfl, le_refl _⟩
  | succ k ih =>
    simp only [recvN] at h
    cases hs : c.recv with
    | none => rw [hs] at h; simp at h
    | some c1 =>
      rw [hs] at h
      obtain ⟨e1, e2⟩ := recv_inv c c1 hs
      obtain ⟨i1, i2⟩ := ih c1 h
      exact ⟨by rw [i1, e1], by omega⟩

/-- Unfolding a mapped outcome that returned. -/
theorem map_eq_ret {α β : Type} (f : α → β) (o : Outcome α) (b : β) (h : o.map f = .ret b) :
    ∃ a, o = .ret a ∧ f a = b := by
  cases o with
  | ret a => exact ⟨a, rfl, by simpa [Outcome.map] using h⟩
  | panicked e p => simp [Outcome.map] at h
  | blocked p => simp [Outcome.map] at h

/-- Unfolding a mapped outcome that parked. -/
theorem map_eq_blocked {α β : Type} (f : α → β) (o : Outcome α) (p : Chan)
    (h : o.map f = .blocked p) : o = .blocked p := by
  cases o with
  | ret a => simp [Outcome.map] at h
  | panicked e p => simp [Outcome.map] at h
  | blocked q => simpa [Outcome.map] using h

/-- Every reachable pool has the capacity given to `New` and holds at most that many units. -/
theorem reachable_inv (c : Int) (hc : 0 ≤ c) (s : Semaphore) (h : Reachable c s) :
    s.self.cap = c.toNat ∧ s.self.len ≤ s.self.cap := by
  induction h with
  | new s hnew =>
    have hneg : ¬ c < 0 := by omega
    simp only [New, hneg, if_false] at hnew
    obtain ⟨p, hp, rfl⟩ := map_eq_ret _ _ _ hnew
    exact sendN_inv c.toNat ⟨c.toNat, 0⟩ p (Or.inl hp) (Nat.zero_le _)
  | acquireNow s n b s' _ hop ih =>
    unfold AcquireNow at hop
    by_cases hg : (s.self.len : Int) ≥ n
    · rw [if_pos hg] at hop
      obtain ⟨p, hp, he⟩ := map_eq_ret _ _ _ hop
      obtain ⟨e1, e2⟩ := recvN_inv _ _ _ hp
      simp only [Prod.mk.injEq] at he
      obtain ⟨-, rfl⟩ := he
      exact ⟨by simp only; rw [e1, ih.1], by simp only; omega⟩
    · rw [if_neg hg] at hop
      simp only [Outcome.ret.injEq, Prod.mk.injEq] at hop
      obtain ⟨-, rfl⟩ := hop
      exact ih
  | release s n s' _ hop ih =>
    unfold Release at hop
    by_cases hg : n < 0 ∨ n > (s.self.cap : Int) - Busy s
    · rw [if_pos hg] at hop; simp at hop
    · rw [if_neg hg] at hop
      obtain ⟨p, hp, rfl⟩ := map_eq_ret _ _ _ hop
      obtain ⟨e1, e2⟩ := sendN_inv _ _ _ (Or.inl hp) ih.2
      exact ⟨by simp only; rw [e1, ih.1], e2⟩
  | releaseParked s n p _ hop ih =>
    unfold Release at hop
    by_cases hg : n < 0 ∨ n > (s.self.cap : Int) - Busy s
    · rw [if_pos hg] at hop; simp at hop
    · rw [if_neg hg] at hop
      have hp := map_eq_blocked _ _ _ hop
      obtain ⟨e1, e2⟩ := sendN_inv _ _ _ (Or.inr hp) ih.2
      exact ⟨by simp only; rw [e1, ih.1], e2⟩
  | acquire s sch n fuel b s' _ hop ih =>
    unfold Smph.acquire at hop
    cases hl : acquireLoop sch n fuel 0 0 s.self with
    | none => rw [hl] at hop; simp at hop
    | some r =>
      obtain ⟨b1, a, p⟩ := r
      rw [hl] at hop
      obtain ⟨h1, h2, h3, -, -⟩ := acquireLoop_spec sch n fuel 0 0 s.self b1 a p hl
      have hp : p.len ≤ p.cap := by omega
      cases b1 with
      | false =>
        simp only [Bool.not_false, if_true, Option.some.injEq] at hop
        obtain ⟨q, hq, he⟩ := map_eq_ret _ _ _ hop
        obtain ⟨e1, e2⟩ := sendN_inv _ _ _ (Or.inl hq) hp
        simp only [Prod.mk.injEq] at he
        obtain ⟨-, rfl⟩ := he
        exact ⟨by simp only; rw [e1, h1, ih.1], e2⟩
      | true =>
        simp only [Bool.not_true, Bool.false_eq_true, if_false, Option.some.injEq,
          Outcome.ret.injEq, Prod.mk.injEq] at hop
        obtain ⟨-, rfl⟩ := hop
        exact ⟨by simp only; rw [h1, ih.1], hp⟩
  | poll s sch n t a r a' p _ hop ih =>
    obtain ⟨h1, -, -, h4, -⟩ := pollOnce_spec sch n t a s.self r a' p hop
    exact ⟨by simp only; rw [h1, ih.1], by simp only; omega⟩
  | put s p _ hop ih =>
    obtain ⟨e1, e2⟩ := send_inv _ _ hop
    exact ⟨by simp only; rw [e1, ih.1], e2⟩
  | take s p _ hop ih =>
    obtain ⟨e1, e2⟩ := recv_inv _ _ hop
    exact ⟨by simp only; rw [e1, ih.1], by simp only; omega⟩

/-- C6: capacity bound.  For `c ≥ 0`, `New(ctx, c)` returns a semaphore with `Count() = c`,
`Busy() = 0` and `Capacity() = c`; and in every state reachable from it by `AcquireNow`,
`Release` and worker `acquire` steps, `0 ≤ Count() ≤ Capacity()`, `Capacity() = c` and
`Busy() + Count() = Capacity()`. -/
theorem capacity_bound (c : Int) (hc : 0 ≤ c) :
    (∃ s0, New c = .ret s0 ∧ Count s0 = c ∧ Busy s0 = 0 ∧ Capacity s0 = c) ∧
    (∀ s, Reachable c s →
      0 ≤ Count s ∧ Count s ≤ Capacity s ∧ Capacity s = c ∧ Busy s + Count s = Capacity s) := by
  constructor
  · refine ⟨⟨⟨c.toNat, c.toNat⟩⟩, ?_, ?_, ?_, ?_⟩
    · have hneg : ¬ c < 0 := by omega
      have := sendN_of_le c.toNat ⟨c.toNat, 0⟩ (by simp)
      simp only [New, hneg, if_false, this, Outcome.map]
      simp
    · simp only [Count]; omega
    · simp only [Busy]; omega
    · simp only [Capacity]; omega
  · intro s hs
    obtain ⟨h1, h2⟩ := reachable_inv c hc s hs
    simp only [Count, Capacity, Busy]
    omega

theorem capacity_bound_witness :
    0 ≤ Count ⟨⟨3, 1⟩⟩ ∧ Count ⟨⟨3, 1⟩⟩ ≤ Capacity ⟨⟨3, 1⟩⟩ ∧ Capacity ⟨⟨3, 1⟩⟩ = 3 ∧
      Busy ⟨⟨3, 1⟩⟩ + Count ⟨⟨3, 1⟩⟩ = Capacity ⟨⟨3, 1⟩⟩ :=
  (capacity_bound 3 (by decide)).2 ⟨⟨3, 1⟩⟩
    (Reachable.acquireNow ⟨⟨3, 3⟩⟩ 2 true ⟨⟨3, 1⟩⟩ (Reachable.new ⟨⟨3, 3⟩⟩ (by decide))
      (by decide))

/-- One unfolding of the polling loop. -/
theorem acquireLoop_succ (sch : Sched) (n : Int) (fuel t : Nat) (a : Int) (c : Chan) :
    acquireLoop sch n (fuel + 1) t a c =
      match pollOnce sch n t a c with
      | (some b, a', c') => some (b, a', c')
      | (none, a', c') => acquireLoop sch n fuel (t + 1) a' c' := rfl

/-- With `n ≤ 0` the success test can never hold, so as long as the context is not cancelled
every pass takes a unit if there is one: `j` passes started at pass `t` leave the loop at pass
`t + j` holding `min j len` more units. -/
theorem acquireLoop_polls (sch : Sched) (n : Int) (hn : n ≤ 0) (j : Nat) :
    ∀ (fuel t : Nat) (a : Int) (c : Chan), 0 ≤ a →
      (∀ i, i < j → sch.fired (t + i) = false) →
      acquireLoop sch n (j + fuel) t a c =
        acquireLoop sch n fuel (t + j) (a + ((min j c.len : Nat) : Int))
          ⟨c.cap, c.len - min j c.len⟩ := by
  induction j with
  | zero => intro fuel t a c _ _; simp
  | succ j ih =>
    intro fuel t a c ha hf
    have e : j + 1 + fuel = (j + fuel) + 1 := by omega
    rw [e, acquireLoop_succ]
    rcases hp : pollOnce sch n t a c with ⟨r, a1, c1⟩
    have hs := pollOnce_spec sch n t a c r a1 c1 hp
    have hft : sch.fired t = false := by simpa using hf 0 (by omega)
    have hr : r = none := by
      cases r with
      | none => rfl
      | some b =>
        cases b with
        | true => have := hs.2.2.2.2.1 rfl; omega
        | false => have := (hs.2.2.2.2.2.1 rfl).1; rw [hft] at this; cases this
    subst hr
    simp only
    obtain ⟨h1, h2⟩ := hs.2.2.2.2.2.2.2 rfl hft
    rw [ih fuel (t + 1) a1 c1 (by omega) (fun i hi => by
      have := hf (i + 1) (by omega)
      rwa [show t + 1 + i = t + (i + 1) by omega])]
    have e1 : t + 1 + j = t + (j + 1) := by omega
    have e2 : a1 + ((min j c1.len : Nat) : Int) = a + ((min (j + 1) c.len : Nat) : Int) := by
      rw [h2, h1]; omega
    have e3 : c1.len - min j c1.len = c.len - min (j + 1) c.len := by
      rw [h1]; omega
    rw [e1, e2, e3, hs.1]

/-- C10 fails as stated: with two units in the pool, `n = 0` and a context that is already
cancelled, the first pass through the `select` may pick `<-ctx.Done()`; the loop then returns
`false` holding no unit at all, so the worker did not take every available unit. -/
theorem acquire_zero_cancelled_takes_nothing :
    acquireLoop (cancelledAt 0) 0 1 0 0 ⟨2, 2⟩ = some (false, 0, ⟨2, 2⟩) ∧
    acquire (cancelledAt 0) ⟨⟨2, 2⟩⟩ 0 1 = some (.ret (false, ⟨⟨2, 2⟩⟩)) ∧
    ¬ ((0 : Int) = Count ⟨⟨2, 2⟩⟩) := by
  refine ⟨by decide, by decide, by decide⟩

/-- C10, amended: a queued acquisition of `n ≤ 0` units is never granted.  In a well-formed
state with no concurrent pool mutation, for every cancellation point and every resolution of
the `select`: `acquire` never returns `true`; as long as the context is not cancelled each pass
takes a unit if there is one, so after `j` such passes the loop is still running and holds
`min j Count()` units (all of them once `j ≥ Count()`); the call returns only when the context
has been cancelled, and then it returns `false` with the semaphore as it was before the attempt;
and once the context is cancelled at pass `k` it does return within `k + Count() + 1` passes. -/
theorem acquire_nonpositive_never_granted (s : Semaphore) (n : Int) (hwf : s.self.wf)
    (hn : n ≤ 0) (sch : Sched) :
    (∀ (fuel : Nat) (s' : Semaphore), acquire sch s n fuel ≠ some (.ret (true, s'))) ∧
    (∀ j : Nat, (∀ i, i < j → sch.fired i = false) →
      acquireLoop sch n j 0 0 s.self = none ∧
      ∀ fuel, acquireLoop sch n (j + fuel) 0 0 s.self =
        acquireLoop sch n fuel j ((min j s.self.len : Nat) : Int)
          ⟨s.self.cap, s.self.len - min j s.self.len⟩) ∧
    (∀ (fuel : Nat) (o : Outcome (Bool × Semaphore)), acquire sch s n fuel = some o →
      (∃ k, sch.cancelAt = some k ∧ k < fuel) ∧ o = .ret (false, s)) ∧
    (∀ k : Nat, sch.cancelAt = some k → ∀ fuel, k + s.self.len + 1 ≤ fuel →
      acquire sch s n fuel = some (.ret (false, s))) := by
  have noSuccess : ∀ (fuel : Nat) (a : Int) (c : Chan),
      acquireLoop sch n fuel 0 0 s.self ≠ some (true, a, c) := by
    intro fuel a c h
    obtain ⟨-, -, -, h4, -⟩ := acquireLoop_spec sch n fuel 0 0 s.self true a c h
    have := h4 rfl
    omega
  have polls : ∀ j : Nat, (∀ i, i < j → sch.fired i = false) →
      ∀ fuel, acquireLoop sch n (j + fuel) 0 0 s.self =
        acquireLoop sch n fuel j ((min j s.self.len : Nat) : Int)
          ⟨s.self.cap, s.self.len - min j s.self.len⟩ := by
    intro j hj fuel
    have := acquireLoop_polls sch n hn j fuel 0 0 s.self (le_refl _)
      (fun i hi => by simpa using hj i hi)
    simpa using this
  refine ⟨?_, ?_, ?_, ?_⟩
  · intro fuel s' h
    cases hl : acquireLoop sch n fuel 0 0 s.self with
    | none => simp [acquire, hl] at h
    | some r =>
      obtain ⟨b, a, c⟩ := r
      cases b with
      | false =>
        simp only [acquire, hl, Bool.not_false, if_true, Option.some.injEq] at h
        cases hs : sendN a.toNat c <;> simp [hs, Outcome.map] at h
      | true => exact noSuccess fuel a c hl
  · intro j hj
    refine ⟨?_, polls j hj⟩
    have := polls j hj 0
    simp only [Nat.add_zero] at this
    rw [this]
    rfl
  · intro fuel o ho
    cases hl : acquireLoop sch n fuel 0 0 s.self with
    | none => simp [acquire, hl] at ho
    | some r =>
      obtain ⟨b, a, c⟩ := r
      cases b with
      | true => exact absurd hl (noSuccess fuel a c)
      | false =>
        obtain ⟨-, -, -, -, h5⟩ := acquireLoop_spec sch n fuel 0 0 s.self false a c hl
        obtain ⟨k, hk, hkf⟩ := h5 rfl
        refine ⟨⟨k, hk, by omega⟩, ?_⟩
        have := ((acquire_failure_rolls_back sch s n fuel hwf).1 a c hl).2
        rw [this] at ho
        exact (Option.some.inj ho).symm
  · intro k hk fuel hfuel
    obtain ⟨⟨b, a, c⟩, hr⟩ := acquireLoop_terminates sch n k hk fuel 0 0 s.self (by omega)
    cases b with
    | true => exact absurd hr (noSuccess fuel a c)
    | false => exact ((acquire_failure_rolls_back sch s n fuel hwf).1 a c hr).2

theorem acquire_nonpositive_never_granted_witness :
    acquire (cancelledAt 5) ⟨⟨3, 2⟩⟩ 0 8 = some (.ret (false, ⟨⟨3, 2⟩⟩)) :=
  (acquire_nonpositive_never_granted ⟨⟨3, 2⟩⟩ 0 (by decide) (by decide) (cancelledAt 5)).2.2.2
    5 rfl 8 (by decide)

/-- Once the worker is at the send for a request whose call has returned, no event moves it:
every event that can happen leaves the worker at that send, leaves a non-empty request queue
as it is, and leaves every call that is waiting or has given up either waiting or given up. -/
theorem stalled_step (r : request) (b : Bool) (σ σ' : System) (e : Event)
    (hst : Stalled r b σ) (h : step σ e = some σ') :
    Stalled r b σ' ∧ (σ.requests ≠ [] → σ'.requests = σ.requests) ∧
    (∀ (i : Nat) (q : request),
      (σ.callers[i]? = some (Caller.atWait q) ∨ σ.callers[i]? = some (Caller.returned false)) →
      (σ'.callers[i]? = some (Caller.atWait q) ∨
        σ'.callers[i]? = some (Caller.returned false))) := by
  obtain ⟨hw, res, hres⟩ := hst
  have inRange : ∀ (i : Nat) (c : Caller), σ.callers[i]? = some c → i < σ.callers.length := by
    intro i c hc
    by_contra hlen
    rw [List.getElem?_eq_none (by omega)] at hc
    cases hc
  cases e with
  | call ctx n =>
    simp only [step, Option.some.injEq] at h
    subst h
    refine ⟨⟨hw, res, ?_⟩, fun _ => rfl, ?_⟩
    · simp only
      rw [List.getElem?_append_left (inRange _ _ hres)]
      exact hres
    · intro i q hq
      simp only
      rcases hq with hq | hq
      · rw [List.getElem?_append_left (inRange _ _ hq)]; exact Or.inl hq
      · rw [List.getElem?_append_left (inRange _ _ hq)]; exact Or.inr hq
  | caller i cancelled =>
    simp only [step, Acquire] at h
    have hne : i ≠ r.done := by
      intro hi
      subst hi
      rw [hres] at h
      simp at h
    have keep : ∀ (c : Caller), (c = Caller.returned false ∨
        ∃ q, σ.callers[i]? = some (Caller.atSubmit q)) →
        (∃ res, (σ.callers.set i c)[r.done]? = some (Caller.returned res)) ∧
        (∀ (j : Nat) (q : request),
          (σ.callers[j]? = some (Caller.atWait q) ∨
            σ.callers[j]? = some (Caller.returned false)) →
          ((σ.callers.set i c)[j]? = some (Caller.atWait q) ∨
            (σ.callers.set i c)[j]? = some (Caller.returned false))) := by
      intro c hcase
      refine ⟨⟨res, by rw [List.getElem?_set_ne hne]; exact hres⟩, ?_⟩
      intro j q hq
      by_cases hij : i = j
      · subst hij
        rcases hcase with hc | ⟨q', hq'⟩
        · right
          have hi : i < σ.callers.length := by
            rcases hq with hq | hq
            · exact inRange _ _ hq
            · exact inRange _ _ hq
          rw [List.getElem?_set_self hi, hc]
        · rcases hq with hq | hq
          · rw [hq] at hq'; cases hq'
          · rw [hq] at hq'; cases hq'
      · rw [List.getElem?_set_ne hij]
        exact hq
    cases hc : σ.callers[i]? with
    | none => rw [hc] at h; simp at h
    | some c =>
      rw [hc] at h
      cases c with
      | returned x => simp at h
      | atWait q =>
        cases cancelled with
        | false => simp at h
        | true =>
          simp only [if_true, Option.some.injEq] at h
          subst h
          obtain ⟨k1, k2⟩ := keep (Caller.returned false) (Or.inl rfl)
          exact ⟨⟨hw, k1⟩, fun _ => rfl, k2⟩
      | atSubmit q =>
        cases cancelled with
        | true =>
          simp only [if_true, Option.some.injEq] at h
          subst h
          obtain ⟨k1, k2⟩ := keep (Caller.returned false) (Or.inl rfl)
          exact ⟨⟨hw, k1⟩, fun _ => rfl, k2⟩
        | false =>
          simp only [Bool.false_eq_true, if_false] at h
          by_cases hl : σ.requests.length < 1
          · rw [if_pos hl] at h
            simp only [Option.some.injEq] at h
            subst h
            obtain ⟨k1, k2⟩ := keep (Caller.atWait q) (Or.inr ⟨q, hc⟩)
            refine ⟨⟨hw, k1⟩, ?_, k2⟩
            intro hne'
            have : σ.requests = [] := List.eq_nil_of_length_eq_zero (by omega)
            exact absurd this hne'
          · rw [if_neg hl] at h
            cases h
  | worker closing fuel =>
    simp only [step, processRequests, hw, hres] at h
    cases h
  | acquireNow n =>
    simp only [step] at h
    cases ho : AcquireNow σ.smph n with
    | ret a =>
      rw [ho] at h
      simp only [Option.some.injEq] at h
      subst h
      exact ⟨⟨hw, res, hres⟩, fun _ => rfl, fun i q hq => hq⟩
    | panicked e p => rw [ho] at h; cases h
    | blocked p => rw [ho] at h; cases h
  | release n =>
    simp only [step] at h
    cases ho : Release σ.smph n with
    | ret a =>
      rw [ho] at h
      simp only [Option.some.injEq] at h
      subst h
      exact ⟨⟨hw, res, hres⟩, fun _ => rfl, fun i q hq => hq⟩
    | panicked e p => rw [ho] at h; cases h
    | blocked p => rw [ho] at h; cases h

/-- A stalled worker stays stalled along every sequence of events: the queued request is never
dequeued and a call waiting for its outcome can only give up. -/
theorem stalled_run (r : request) (b : Bool) (es : List Event) :
    ∀ σ : System, Stalled r b σ → σ.requests ≠ [] →
      (run σ es).worker = .atSend r b ∧ (run σ es).requests = σ.requests ∧
      (∀ (i : Nat) (q : request),
        (σ.callers[i]? = some (Caller.atWait q) ∨
          σ.callers[i]? = some (Caller.returned false)) →
        ((run σ es).callers[i]? = some (Caller.atWait q) ∨
          (run σ es).callers[i]? = some (Caller.returned false))) := by
  induction es with
  | nil => intro σ hst _; exact ⟨hst.1, rfl, fun i q hq => hq⟩
  | cons e es ih =>
    intro σ hst hne
    simp only [run]
    cases hs : step σ e with
    | none => exact ih σ hst hne
    | some σ' =>
      obtain ⟨s1, s2, s3⟩ := stalled_step r b σ σ' e hst hs
      have hreq := s2 hne
      obtain ⟨i1, i2, i3⟩ := ih σ' s1 (by rw [hreq]; exact hne)
      exact ⟨i1, by rw [i2, hreq], fun i q hq => i3 i q (s3 i q hq)⟩

/-- C9: an abandoned request stalls the worker.  After `New(ctx, 1)`, a call `Acquire(ctx, 2)`
enqueues its request, `ctx` is cancelled and the call returns `false`; the worker dequeues the
request and runs `acquire` to completion (outcome `false`, pool restored), and is then at the
send `r.done <- false` on the unbuffered channel of a call that has returned.  A second call
`Acquire(context.Background(), 1)` enqueues its request.  From then on, whatever the other
goroutines do and even if the semaphore's own context is cancelled, the worker stays at that
send, the second request stays in the queue, and the second call is never granted. -/
theorem abandoned_request_stalls_worker :
    (run afterNew1 abandonScenario).worker = .atSend ⟨cancelledAt 0, 2, 0⟩ false ∧
    (run afterNew1 abandonScenario).callers =
      [.returned false, .atWait ⟨neverCancelled, 1, 1⟩] ∧
    (run afterNew1 abandonScenario).requests = [⟨neverCancelled, 1, 1⟩] ∧
    (run afterNew1 abandonScenario).smph = ⟨⟨1, 1⟩⟩ ∧
    (∀ (closing : Bool) (fuel : Nat),
      processRequests closing fuel (run afterNew1 abandonScenario) = none) ∧
    (∀ es : List Event,
      (run (run afterNew1 abandonScenario) es).worker = .atSend ⟨cancelledAt 0, 2, 0⟩ false ∧
      (run (run afterNew1 abandonScenario) es).requests = [⟨neverCancelled, 1, 1⟩] ∧
      ((run (run afterNew1 abandonScenario) es).callers[1]? =
          some (Caller.atWait ⟨neverCancelled, 1, 1⟩) ∨
        (run (run afterNew1 abandonScenario) es).callers[1]? = some (Caller.returned false))) := by
  have hst : Stalled ⟨cancelledAt 0, 2, 0⟩ false (run afterNew1 abandonScenario) :=
    ⟨rfl, false, rfl⟩
  refine ⟨rfl, rfl, rfl, rfl, fun closing fuel => rfl, ?_⟩
  intro es
  obtain ⟨h1, h2, h3⟩ := stalled_run ⟨cancelledAt 0, 2, 0⟩ false es
    (run afterNew1 abandonScenario) hst (by intro h; cases h)
  exact ⟨h1, h2, h3 1 ⟨neverCancelled, 1, 1⟩ (Or.inl rfl)⟩

end Smph
